import Mathlib

set_option maxHeartbeats 1000000

/-!
Verification of the batching and broadcasting utilities of the `lab`
linear-algebra dispatch layer (`lab/util.py`): axis resolution, shape
broadcasting, batch-index translation, the batch-computation engine, the
`abstract` dispatch decorator, and batch compression.  Tensors are modelled
as a shape together with row-major (C-order) flat data, matching the numpy
memory model the code relies on.
-/

/-- A tensor: a shape and its row-major flat data. -/
structure Tensor where
  shape : List Nat
  data : List Int
deriving DecidableEq

/-- A tensor is well formed when its flat data has exactly as many elements
as the product of its shape.  Every actual backend tensor satisfies this. -/
def wf (t : Tensor) : Prop := t.data.length = t.shape.prod

/-- Errors raised by the Python code: `ValueError` from `resolve_axis` and
`abstract`, `RuntimeError` from `_common_shape` and `_translate_index`,
`plum.NotFoundLookupError` from `abstract`, and errors of the numpy backend
(`stack` on no arrays, `reshape` with an incompatible shape).  Payloads keep
the data interpolated into the Python error messages. -/
inductive Err where
  | axisError (givenAxis : Int) (shape : List Nat)
  | reconcileError (commonShape shape : List Nat)
  | translateError (index batchShape : List Nat)
  | stackError
  | reshapeError (dims : List Int)
  | notFoundLookupError (fname : String) (types : List String)
  | valueError
  | emptyArgsError
deriving DecidableEq

deriving instance DecidableEq for Except

/-- Map an option-valued function over a list, failing if any element fails
(models a Python loop whose body may raise). -/
def mapOpt (g : α → Option β) : List α → Option (List β)
  | [] => some []
  | a :: l => (g a).bind (fun b => (mapOpt g l).map (fun bs => b :: bs))

/-- Map an except-valued function over a list, propagating the first error
(models a Python loop whose body may raise). -/
def mapExcept (g : α → Except Err β) : List α → Except Err (List β)
  | [] => .ok []
  | a :: l => (g a).bind (fun b => (mapExcept g l).map (fun bs => b :: bs))

/-- Left fold with an except-valued step (models a Python reduction loop). -/
def foldExcept (g : β → α → Except Err β) : β → List α → Except Err β
  | b, [] => .ok b
  | b, a :: l => (g b a).bind (fun b' => foldExcept g b' l)

@[simp] theorem except_bind_ok (b : β) (g : β → Except Err γ) :
    (Except.ok b : Except Err β).bind g = g b := rfl

@[simp] theorem except_bind_error (e : Err) (g : β → Except Err γ) :
    (Except.error e : Except Err β).bind g = .error e := rfl

@[simp] theorem except_map_ok (b : β) (g : β → γ) :
    (Except.ok b : Except Err β).map g = .ok (g b) := rfl

@[simp] theorem except_map_error (e : Err) (g : β → γ) :
    (Except.error e : Except Err β).map g = .error e := rfl

/-- Row-major slice of flat tensor data at a (leading) multi-index: models
numpy basic integer indexing `x[(i1, ..., ik)]`. -/
def sliceData : List Nat → List Nat → List Int → List Int
  | _, [], data => data
  | [], _ :: _, data => data
  | _ :: shape', i :: idx', data =>
    sliceData shape' idx' ((data.drop (i * shape'.prod)).take shape'.prod)

/-- Index a tensor at a (leading) multi-index, keeping trailing dimensions
intact: models `x[index]` for a tuple `index` of integers. -/
def tindex (t : Tensor) (idx : List Nat) : Tensor :=
  ⟨t.shape.drop idx.length, sliceData t.shape idx t.data⟩

/-- Embeds `resolve_axis` of `lab/util.py`: resolve an axis for tensor `a`,
to the positive convention by default or to the negative convention when
`negative` is set; a `none` axis passes through unresolved. -/
def resolve_axis (a : Tensor) (axis : Option Int) (negative : Bool) :
    Except Err (Option Int) :=
  match axis with
  | none => .ok none
  | some givenAxis =>
    let aRank : Int := a.shape.length
    match negative with
    | false =>
      let ax := if givenAxis < 0 then givenAxis + aRank else givenAxis
      if 0 ≤ ax ∧ ax < aRank then .ok (some ax)
      else .error (.axisError givenAxis a.shape)
    | true =>
      let ax := if 0 ≤ givenAxis then givenAxis - aRank else givenAxis
      if -aRank ≤ ax ∧ ax < 0 then .ok (some ax)
      else .error (.axisError givenAxis a.shape)

/-- The Python slice `l[:-r]`.  For `r = 0` Python reads `-0` as `0`, so the
result is the EMPTY list, not the whole of `l`. -/
def pyDropLast (l : List Nat) (r : Nat) : List Nat :=
  if r = 0 then [] else l.take (l.length - r)

/-- The Python slice `l[-k:]`.  For `k = 0` Python reads `-0` as `0`, so the
result is the whole of `l`. -/
def pyTailSlice (l : List Nat) (k : Nat) : List Nat :=
  if k = 0 then l else l.drop (l.length - k)

/-- Embeds `_translate_index` of `lab/util.py`: restrict a batch coordinate
to an argument's batch shape, keep in-range indices, send indices into
broadcast (size-1) dimensions to 0, and raise otherwise. -/
def _translate_index (index : List Nat) (batch_shape : List Nat) :
    Except Err (List Nat) :=
  let index' := pyTailSlice index batch_shape.length
  match mapOpt (fun p => if p.1 < p.2 then some p.1 else if p.2 = 1 then some 0 else none)
      (index'.zip batch_shape) with
  | some r => .ok r
  | none => .error (.translateError index' batch_shape)

/-- The per-argument batch shapes computed by `batch_computation`:
`B.shape(x)[:-rank]` for each argument. -/
def batchShapes (xs : List Tensor) (ranks : List Nat) : List (List Nat) :=
  (xs.zip ranks).map (fun p => pyDropLast p.1.shape p.2)

theorem pyDropLast_zero (l : List Nat) : pyDropLast l 0 = [] := rfl

theorem pyDropLast_pos (l : List Nat) (r : Nat) (h : 1 ≤ r) :
    pyDropLast l r = l.take (l.length - r) := by
  unfold pyDropLast
  rw [if_neg (by omega)]

theorem pyDropLast_full (l : List Nat) : pyDropLast l l.length = [] := by
  unfold pyDropLast
  rcases Nat.eq_zero_or_pos l.length with h | h
  · rw [if_pos h]
  · rw [if_neg (by omega), Nat.sub_self, List.take_zero]

/-- C5: with `negative = False`, resolving an in-range axis `k` (with
`0 ≤ k < rank a`) is a no-op, resolving `k - rank a` gives the same result,
any axis outside `[-rank a, rank a)` raises a `ValueError` reporting the
original axis and the tensor's shape, and an absent axis passes through. -/
theorem resolve_axis_spec (a : Tensor) :
    (∀ k : Int, 0 ≤ k → k < (a.shape.length : Int) →
      resolve_axis a (some k) false = .ok (some k) ∧
      resolve_axis a (some (k - (a.shape.length : Int))) false =
        resolve_axis a (some k) false) ∧
    (∀ z : Int, z < -(a.shape.length : Int) ∨ (a.shape.length : Int) ≤ z →
      resolve_axis a (some z) false = .error (.axisError z a.shape)) ∧
    resolve_axis a none false = .ok none := by
  refine ⟨?_, ?_, rfl⟩
  · intro k h0 hr
    constructor
    · simp only [resolve_axis]
      rw [if_neg (by omega : ¬ k < 0), if_pos ⟨h0, hr⟩]
    · simp only [resolve_axis]
      rw [if_pos (by omega : k - (a.shape.length : Int) < 0),
        if_neg (by omega : ¬ k < 0),
        if_pos (by constructor <;> omega),
        if_pos ⟨h0, hr⟩,
        (by omega : k - (a.shape.length : Int) + (a.shape.length : Int) = k)]
  · intro z hz
    simp only [resolve_axis]
    rcases hz with hz | hz
    · rw [if_pos (by omega : z < 0), if_neg (by rintro ⟨h1, h2⟩; omega)]
    · rw [if_neg (by omega : ¬ z < 0), if_neg (by rintro ⟨h1, h2⟩; omega)]

theorem resolve_axis_spec_witness :
    ((0 : Int) ≤ 1 ∧ (1 : Int) < (([5, 7] : List Nat).length : Int)) ∧
    resolve_axis ⟨[5, 7], []⟩ (some 1) false = .ok (some 1) ∧
    resolve_axis ⟨[5, 7], []⟩ (some (1 - (([5, 7] : List Nat).length : Int))) false =
      resolve_axis ⟨[5, 7], []⟩ (some 1) false :=
  ⟨⟨by decide, by decide⟩, (resolve_axis_spec ⟨[5, 7], []⟩).1 1 (by decide) (by decide)⟩

theorem mapOpt_translate (l : List (Nat × Nat)) :
    mapOpt (fun p => if p.1 < p.2 then some p.1 else if p.2 = 1 then some 0 else none) l =
    if l.all (fun p => decide (p.1 < p.2) || decide (p.2 = 1))
    then some (l.map (fun p => if p.1 < p.2 then p.1 else 0)) else none := by
  induction l with
  | nil => rfl
  | cons p l ih =>
    simp only [mapOpt, ih, List.all_cons, List.map_cons]
    by_cases h1 : p.1 < p.2
    · by_cases h2 : l.all (fun p => decide (p.1 < p.2) || decide (p.2 = 1))
      · simp [h1, h2]
      · simp [h1, h2]
    · by_cases h3 : p.2 = 1
      · by_cases h2 : l.all (fun p => decide (p.1 < p.2) || decide (p.2 = 1))
        · simp only [h1, h3, h2]
          by_cases h4 : p.1 = 0 <;> simp [h1, h3, h2, h4]
        · simp [h1, h3, h2]
      · simp [h1, h3]

/-- C4: `_translate_index` first drops leading coordinate components so the
coordinate has the target batch shape's length, then keeps each index that is
in range, rewrites it to 0 against a size-1 dimension, and raises otherwise;
translating (2,0) against (1,5) gives (0,0), against (3,5) gives (2,0), and
against (2,5) fails. -/
theorem translate_index_spec :
    (∀ (index bs : List Nat), bs.length ≤ index.length →
      _translate_index index bs =
        _translate_index (index.drop (index.length - bs.length)) bs) ∧
    (∀ (index bs : List Nat), index.length = bs.length →
      _translate_index index bs =
        if (index.zip bs).all (fun p => decide (p.1 < p.2) || decide (p.2 = 1))
        then .ok ((index.zip bs).map (fun p => if p.1 < p.2 then p.1 else 0))
        else .error (.translateError index bs)) ∧
    _translate_index [2, 0] [1, 5] = .ok [0, 0] ∧
    _translate_index [2, 0] [3, 5] = .ok [2, 0] ∧
    _translate_index [2, 0] [2, 5] = .error (.translateError [2, 0] [2, 5]) := by
  refine ⟨?_, ?_, by decide, by decide, by decide⟩
  · intro index bs h
    have hlen : (index.drop (index.length - bs.length)).length = bs.length := by
      rw [List.length_drop]; omega
    rcases Nat.eq_zero_or_pos bs.length with h0 | h0
    · have hb : bs = [] := List.length_eq_zero.mp h0
      subst hb
      simp [_translate_index, pyTailSlice, mapOpt]
    · have e1 : pyTailSlice index bs.length = index.drop (index.length - bs.length) := by
        unfold pyTailSlice; rw [if_neg (by omega)]
      have e2 : pyTailSlice (index.drop (index.length - bs.length)) bs.length =
          index.drop (index.length - bs.length) := by
        unfold pyTailSlice; rw [if_neg (by omega), hlen, Nat.sub_self, List.drop_zero]
      simp only [_translate_index]
      rw [e1, e2]
  · intro index bs h
    have e1 : pyTailSlice index bs.length = index := by
      unfold pyTailSlice
      rcases Nat.eq_zero_or_pos bs.length with h0 | h0
      · rw [if_pos h0]
      · rw [if_neg (by omega), h, Nat.sub_self, List.drop_zero]
    simp only [_translate_index]
    rw [e1, mapOpt_translate]
    by_cases hall : (index.zip bs).all (fun p => decide (p.1 < p.2) || decide (p.2 = 1))
    · rw [if_pos hall, if_pos hall]
    · rw [if_neg hall, if_neg hall]

theorem translate_index_spec_witness :
    ([3, 5] : List Nat).length ≤ ([9, 2, 0] : List Nat).length ∧
    _translate_index [9, 2, 0] [3, 5] =
      _translate_index (([9, 2, 0] : List Nat).drop
        (([9, 2, 0] : List Nat).length - ([3, 5] : List Nat).length)) [3, 5] :=
  ⟨by decide, translate_index_spec.1 [9, 2, 0] [3, 5] (by decide)⟩

/-- C2 counterexample: for kernel-rank 0 the batch shape computed by
`batch_computation` (the Python slice `shape[:-0]`) is EMPTY, not the full
shape of the argument as the claim states. -/
theorem batch_shape_rank_zero_counterexample :
    batchShapes [Tensor.mk [3] [1, 2, 3]] [0] = [([] : List Nat)] ∧
    ([([] : List Nat)] : List (List Nat)) ≠ [[3]] := by
  constructor
  · rfl
  · decide

/-- C2 (amended): for kernel-rank `r ≥ 1` the batch shape of an argument is
its shape with the last `r` dimensions removed; for `r = 0` it is the empty
shape (a consequence of Python's `shape[:-0] == ()`), so the whole argument
is reused at every batch coordinate. -/
theorem batch_shape_spec (xs : List Tensor) (ranks : List Nat) :
    batchShapes xs ranks = (xs.zip ranks).map
      (fun p => if p.2 = 0 then [] else p.1.shape.take (p.1.shape.length - p.2)) ∧
    (∀ (l : List Nat) (r : Nat), 1 ≤ r → pyDropLast l r = l.take (l.length - r)) ∧
    pyDropLast [3] 0 = [] := by
  refine ⟨rfl, ?_, rfl⟩
  intro l r h
  exact pyDropLast_pos l r h

theorem batch_shape_spec_witness :
    (1 : Nat) ≤ 2 ∧ pyDropLast [4, 5, 6] 2 = ([4, 5, 6] : List Nat).take (([4, 5, 6] : List Nat).length - 2) :=
  ⟨by decide, (batch_shape_spec [] []).2.1 [4, 5, 6] 2 (by decide)⟩

/-- The per-dimension reconciliation rule in the loop body of
`_common_shape` of `lab/util.py`: equal dimensions are kept, a size-1
dimension stretches to the other, anything else raises. -/
def recDim (d1 d2 : Nat) : Option Nat :=
  if d1 = d2 then some d1
  else if d1 = 1 then some d2
  else if d2 = 1 then some d1
  else none

/-- One iteration of the loop of `_common_shape`: pad the shorter of the
running common shape and the next shape with leading 1s, then reconcile the
aligned dimension pairs. -/
def combineOpt (c s : List Nat) : Option (List Nat) :=
  let s' := List.replicate (c.length - s.length) 1 ++ s
  let c' := List.replicate (s.length - c.length) 1 ++ c
  mapOpt (fun p => recDim p.1 p.2) (c'.zip s')

/-- The loop iteration of `_common_shape` with its `RuntimeError`, whose
message interpolates the padded running common shape and the padded next
shape. -/
def _common_shape_step (c s : List Nat) : Except Err (List Nat) :=
  match combineOpt c s with
  | some r => .ok r
  | none => .error (.reconcileError (List.replicate (s.length - c.length) 1 ++ c)
      (List.replicate (c.length - s.length) 1 ++ s))

/-- Embeds `_common_shape` of `lab/util.py`: start from the first shape and
fold the reconciliation step over the rest (an empty argument list raises an
`IndexError` at `shapes[0]`). -/
def _common_shape (shapes : List (List Nat)) : Except Err (List Nat) :=
  match shapes with
  | [] => .error .emptyArgsError
  | s :: rest => foldExcept _common_shape_step s rest

/-- Modelled from the spec: the per-dimension rule of standard NumPy
broadcasting, applied simultaneously to all shapes — the aligned dimension
sizes must all be equal apart from 1s, which stretch (in particular a size-0
dimension is only compatible with 0 or 1). -/
def broadcastDim (ds : List Nat) : Option Nat :=
  match ds.filter (fun d => decide (d ≠ 1)) with
  | [] => some 1
  | d :: rest => if rest.all (fun x => x = d) then some d else none

/-- Modelled from the spec: simultaneous NumPy broadcasting over reversed
(right-aligned) shapes, one position at a time for `n` positions; absent
positions of shorter shapes count as 1. -/
def bcastStep (rs : List (List Nat)) : Nat → Option (List Nat)
  | 0 => some []
  | n + 1 =>
    (broadcastDim (rs.map (fun s => s.headD 1))).bind (fun d =>
      (bcastStep (rs.map List.tail) n).map (fun rest => d :: rest))

/-- Modelled from the spec: `np.broadcast_shapes` (whose source is not part
of this repository) — right-aligned reconciliation of all shapes at once,
size-1 dimensions stretching, over as many positions as the longest shape. -/
def numpyBroadcast (shapes : List (List Nat)) : Option (List Nat) :=
  (bcastStep (shapes.map List.reverse) ((shapes.map List.length).foldr max 0)).map
    List.reverse

/-- Embeds `broadcast_shapes` of `lab/util.py`, which converts the entries
to plain integers and delegates to `np.broadcast_shapes`. -/
def broadcast_shapes (shapes : List (List Nat)) : Option (List Nat) :=
  numpyBroadcast shapes

/-- Right-aligned pairwise reconciliation on REVERSED shapes: a proof-side
reformulation of `combineOpt` without the leading-1 padding. -/
def combineRev : List Nat → List Nat → Option (List Nat)
  | [], s => some s
  | c, [] => some c
  | d1 :: c, d2 :: s =>
    (recDim d1 d2).bind (fun d => (combineRev c s).map (fun rest => d :: rest))

theorem recDim_one_left (d : Nat) : recDim 1 d = some d := by
  unfold recDim
  by_cases h : (1 : Nat) = d
  · rw [if_pos h, h]
  · rw [if_neg h, if_pos rfl]

theorem recDim_one_right (d : Nat) : recDim d 1 = some d := by
  unfold recDim
  by_cases h : d = 1
  · rw [if_pos h, h]
  · rw [if_neg h, if_neg h, if_pos rfl]

theorem recDim_comm (a b : Nat) : recDim a b = recDim b a := by
  unfold recDim
  split_ifs <;> simp_all

theorem recDim_assoc (a b c : Nat) :
    (recDim a b).bind (fun x => recDim x c) = (recDim b c).bind (fun y => recDim a y) := by
  rcases eq_or_ne a 1 with ha | ha <;> rcases eq_or_ne b 1 with hb | hb <;>
    rcases eq_or_ne c 1 with hc | hc <;> rcases eq_or_ne a b with hab | hab <;>
    rcases eq_or_ne b c with hbc | hbc <;> rcases eq_or_ne a c with hac | hac <;>
    simp_all [recDim]

theorem combineRev_nil_left (s : List Nat) : combineRev [] s = some s := by
  cases s <;> rfl

theorem combineRev_nil_right (c : List Nat) : combineRev c [] = some c := by
  cases c <;> rfl

theorem combineRev_comm (c s : List Nat) : combineRev c s = combineRev s c := by
  induction c generalizing s with
  | nil => rw [combineRev_nil_left, combineRev_nil_right]
  | cons d c ih =>
    cases s with
    | nil => rw [combineRev_nil_left, combineRev_nil_right]
    | cons e s => simp only [combineRev, recDim_comm d e, ih s]

theorem combineRev_length (c : List Nat) : ∀ (s r : List Nat), combineRev c s = some r →
    r.length = max c.length s.length := by
  induction c with
  | nil =>
    intro s r h
    rw [combineRev_nil_left] at h
    obtain rfl := Option.some.inj h
    simp
  | cons d c ih =>
    intro s r h
    cases s with
    | nil =>
      rw [combineRev_nil_right] at h
      obtain rfl := Option.some.inj h
      simp
    | cons e s =>
      simp only [combineRev] at h
      cases hd : recDim d e with
      | none => rw [hd] at h; simp at h
      | some v =>
        rw [hd] at h
        cases hr : combineRev c s with
        | none => rw [hr] at h; simp at h
        | some rest =>
          rw [hr] at h
          simp only [Option.some_bind, Option.map_some'] at h
          obtain rfl := Option.some.inj h
          have := ih s rest hr
          simp only [List.length_cons, this]
          omega

theorem combineRev_replicate (c : List Nat) :
    combineRev c (List.replicate c.length 1) = some c := by
  induction c with
  | nil => rfl
  | cons d c ih =>
    simp only [List.length_cons, List.replicate_succ, combineRev, recDim_one_right, ih,
      Option.some_bind, Option.map_some']

theorem combineRev_pad (s : List Nat) : ∀ (k : Nat) (c : List Nat), s.length + k = c.length →
    combineRev c (s ++ List.replicate k 1) = combineRev c s := by
  induction s with
  | nil =>
    intro k c h
    simp only [List.length_nil, Nat.zero_add] at h
    rw [List.nil_append, combineRev_nil_right, h, combineRev_replicate]
  | cons b s ih =>
    intro k c h
    cases c with
    | nil => simp at h
    | cons d c' =>
      simp only [List.cons_append, combineRev, List.append_eq]
      rw [ih k c' (by simp at h; omega)]

theorem combineRev_snoc (x : List Nat) : ∀ (y : List Nat) (a b : Nat), x.length = y.length →
    combineRev (x ++ [a]) (y ++ [b]) =
      (recDim a b).bind (fun d => (combineRev x y).map (fun r => r ++ [d])) := by
  induction x with
  | nil =>
    intro y a b h
    have hy : y = [] := List.length_eq_zero.mp h.symm
    subst hy
    simp only [List.nil_append, combineRev, combineRev_nil_left]
    cases recDim a b <;> simp
  | cons u x ih =>
    intro y a b h
    cases y with
    | nil => simp at h
    | cons v y =>
      simp only [List.cons_append, combineRev, List.append_eq]
      rw [ih y a b (by simpa using h)]
      cases h1 : recDim u v <;> cases h2 : recDim a b <;> cases h3 : combineRev x y <;> simp

theorem mapOpt_zip_eq_combineRev (c : List Nat) : ∀ (s : List Nat), c.length = s.length →
    mapOpt (fun p => recDim p.1 p.2) (c.zip s) =
      (combineRev c.reverse s.reverse).map List.reverse := by
  induction c with
  | nil =>
    intro s h
    have hs : s = [] := List.length_eq_zero.mp h.symm
    subst hs
    rfl
  | cons a c ih =>
    intro s h
    cases s with
    | nil => simp at h
    | cons b s =>
      simp only [List.zip_cons_cons, mapOpt, List.reverse_cons, List.append_eq]
      have ihs := ih s (by simpa using h)
      simp only [List.zip] at ihs
      rw [ihs, combineRev_snoc c.reverse s.reverse a b (by simp; simpa using h)]
      cases h1 : recDim a b <;> cases h2 : combineRev c.reverse s.reverse <;> simp

theorem combineOpt_eq (c s : List Nat) :
    combineOpt c s = (combineRev c.reverse s.reverse).map List.reverse := by
  rcases le_or_lt s.length c.length with h | h
  · simp only [combineOpt]
    rw [show s.length - c.length = 0 from by omega, List.replicate_zero, List.nil_append]
    rw [mapOpt_zip_eq_combineRev c (List.replicate (c.length - s.length) 1 ++ s)
      (by simp; omega)]
    rw [List.reverse_append, List.reverse_replicate]
    rw [combineRev_pad s.reverse (c.length - s.length) c.reverse (by simp; omega)]
  · simp only [combineOpt]
    rw [show c.length - s.length = 0 from by omega, List.replicate_zero, List.nil_append]
    rw [mapOpt_zip_eq_combineRev (List.replicate (s.length - c.length) 1 ++ c) s
      (by simp; omega)]
    rw [List.reverse_append, List.reverse_replicate]
    rw [combineRev_comm (c.reverse ++ List.replicate (s.length - c.length) 1) s.reverse]
    rw [combineRev_pad c.reverse (s.length - c.length) s.reverse (by simp; omega)]
    rw [combineRev_comm s.reverse c.reverse]

theorem combineRev_assoc (x : List Nat) : ∀ (y z : List Nat),
    (combineRev x y).bind (fun w => combineRev w z) =
      (combineRev y z).bind (fun w => combineRev x w) := by
  induction x with
  | nil =>
    intro y z
    rw [combineRev_nil_left, Option.some_bind]
    cases h : combineRev y z <;> simp [h, combineRev_nil_left]
  | cons a x ih =>
    intro y z
    cases y with
    | nil =>
      rw [combineRev_nil_right, combineRev_nil_left, Option.some_bind, Option.some_bind]
    | cons b y =>
      cases z with
      | nil =>
        rw [combineRev_nil_right, Option.some_bind]
        cases h : combineRev (a :: x) (b :: y) <;>
          simp [h, combineRev_nil_right]
      | cons c z =>
        have hd := recDim_assoc a b c
        have ht := ih y z
        simp only [combineRev]
        cases h1 : recDim a b with
        | none =>
          rw [h1] at hd
          simp only [Option.none_bind] at hd ⊢
          cases h2 : recDim b c with
          | none => simp
          | some d' =>
            rw [h2] at hd
            simp only [Option.some_bind] at hd
            cases h4 : combineRev y z with
            | none => simp
            | some r' =>
              simp only [Option.some_bind, Option.map_some', combineRev, ← hd,
                Option.none_bind]
        | some d =>
          rw [h1] at hd
          simp only [Option.some_bind] at hd
          cases h2 : recDim b c with
          | none =>
            rw [h2] at hd
            simp only [Option.none_bind] at hd ⊢
            cases h3 : combineRev x y with
            | none => simp
            | some r =>
              simp only [Option.some_bind, Option.map_some', combineRev, hd,
                Option.none_bind]
          | some d' =>
            rw [h2] at hd
            simp only [Option.some_bind] at hd
            cases h3 : combineRev x y with
            | none =>
              rw [h3] at ht
              simp only [Option.none_bind] at ht
              cases h4 : combineRev y z with
              | none => simp
              | some r' =>
                rw [h4] at ht
                simp only [Option.some_bind] at ht
                simp only [Option.none_bind, Option.map_none', Option.some_bind,
                  Option.map_some', combineRev, ← ht]
                cases recDim a d' <;> simp
            | some r =>
              rw [h3] at ht
              simp only [Option.some_bind] at ht
              cases h4 : combineRev y z with
              | none =>
                rw [h4] at ht
                simp only [Option.none_bind] at ht
                simp only [Option.some_bind, Option.map_some', combineRev, ht,
                  Option.none_bind]
                cases recDim d c <;> simp
              | some r' =>
                rw [h4] at ht
                simp only [Option.some_bind] at ht
                simp only [Option.some_bind, Option.map_some', combineRev, hd, ht]

theorem broadcastDim_single (d : Nat) : broadcastDim [d] = some d := by
  unfold broadcastDim
  by_cases h : d = 1
  · subst h; rfl
  · simp [h]

theorem broadcastDim_one_cons (l : List Nat) : broadcastDim (1 :: l) = broadcastDim l := by
  unfold broadcastDim
  simp

theorem broadcastDim_cons_cons (x y : Nat) (l : List Nat) :
    broadcastDim (x :: y :: l) = (recDim x y).bind (fun d => broadcastDim (d :: l)) := by
  rcases eq_or_ne x 1 with hx | hx
  · subst hx
    rw [broadcastDim_one_cons, recDim_one_left, Option.some_bind]
  · rcases eq_or_ne y 1 with hy | hy
    · subst hy
      rw [recDim_one_right, Option.some_bind]
      unfold broadcastDim
      simp [hx]
    · rcases eq_or_ne x y with hxy | hxy
      · subst hxy
        rw [show recDim x x = some x from by simp [recDim], Option.some_bind]
        unfold broadcastDim
        simp only [List.filter_cons, hx, decide_not, decide_eq_true_eq]
        simp [hx, List.all_cons]
      · rw [show recDim x y = none from by simp [recDim, hx, hy, hxy], Option.none_bind]
        unfold broadcastDim
        simp only [List.filter_cons]
        simp [hx, hy, Ne.symm hxy]

theorem combineRev_headD (ar br : List Nat) (h : ¬(ar = [] ∧ br = [])) :
    combineRev ar br =
      (recDim (ar.headD 1) (br.headD 1)).bind (fun d =>
        (combineRev ar.tail br.tail).map (fun rest => d :: rest)) := by
  cases ar with
  | nil =>
    cases br with
    | nil => exact absurd ⟨rfl, rfl⟩ h
    | cons b bt =>
      simp only [combineRev_nil_left, List.headD_nil, List.headD_cons, List.tail_nil,
        List.tail_cons, recDim_one_left, Option.some_bind, combineRev_nil_left,
        Option.map_some']
  | cons a at' =>
    cases br with
    | nil =>
      simp only [combineRev_nil_right, List.headD_nil, List.headD_cons, List.tail_nil,
        List.tail_cons, recDim_one_right, Option.some_bind, combineRev_nil_right,
        Option.map_some']
    | cons b bt => rfl

theorem bcastStep_single (r : List Nat) : bcastStep [r] r.length = some r := by
  induction r with
  | nil => rfl
  | cons a r ih =>
    simp only [List.length_cons, bcastStep, List.map_cons, List.map_nil, List.headD_cons,
      List.tail_cons, broadcastDim_single, Option.some_bind, ih, Option.map_some']

theorem bcastStep_pair (n : Nat) : ∀ (ar br : List Nat) (rs : List (List Nat)),
    ar.length ≤ n → br.length ≤ n →
    bcastStep (ar :: br :: rs) n =
      (combineRev ar br).bind (fun cr => bcastStep (cr :: rs) n) := by
  induction n with
  | zero =>
    intro ar br rs ha hb
    have har : ar = [] := List.length_eq_zero.mp (Nat.le_zero.mp ha)
    have hbr : br = [] := List.length_eq_zero.mp (Nat.le_zero.mp hb)
    subst har; subst hbr
    rfl
  | succ n ih =>
    intro ar br rs ha hb
    by_cases hnil : ar = [] ∧ br = []
    · obtain ⟨rfl, rfl⟩ := hnil
      simp only [combineRev_nil_left, Option.some_bind]
      simp only [bcastStep, List.map_cons, List.headD_nil, List.tail_nil]
      rw [broadcastDim_one_cons]
      have := ih [] [] (rs.map List.tail) (by simp) (by simp)
      rw [show ([] : List Nat) :: [] :: rs.map List.tail =
        ([] : List Nat) :: ([] : List Nat) :: rs.map List.tail from rfl] at this
      rw [this, combineRev_nil_left, Option.some_bind]
    · simp only [bcastStep, List.map_cons]
      rw [broadcastDim_cons_cons, combineRev_headD ar br hnil]
      cases h1 : recDim (ar.headD 1) (br.headD 1) with
      | none => simp
      | some d =>
        simp only [Option.some_bind]
        rw [ih ar.tail br.tail (rs.map List.tail)
          (by cases ar <;> simp at ha ⊢ <;> omega)
          (by cases br <;> simp at hb ⊢ <;> omega)]
        cases h2 : combineRev ar.tail br.tail with
        | none =>
          simp only [Option.none_bind, Option.map_none']
          cases h3 : broadcastDim (d :: rs.map (fun s => s.headD 1)) <;> simp
        | some cr' =>
          simp only [Option.some_bind, Option.map_some', bcastStep, List.map_cons,
            List.headD_cons, List.tail_cons]

theorem numpyBroadcast_single (s : List Nat) : numpyBroadcast [s] = some s := by
  unfold numpyBroadcast
  simp only [List.map_cons, List.map_nil, List.foldr_cons, List.foldr_nil, Nat.max_zero]
  rw [← List.length_reverse s, bcastStep_single, Option.map_some', List.reverse_reverse]

theorem numpyBroadcast_pair_cons (a b : List Nat) (rest : List (List Nat)) :
    numpyBroadcast (a :: b :: rest) =
      (combineOpt a b).bind (fun c => numpyBroadcast (c :: rest)) := by
  unfold numpyBroadcast
  simp only [List.map_cons, List.foldr_cons]
  rw [bcastStep_pair (max a.length (max b.length ((rest.map List.length).foldr max 0)))
    a.reverse b.reverse (rest.map List.reverse) (by simp) (by simp)]
  rw [combineOpt_eq]
  cases h : combineRev a.reverse b.reverse with
  | none => simp
  | some cr =>
    simp only [Option.map_some', Option.some_bind, List.reverse_reverse]
    have hlen : cr.length = max a.length b.length := by
      have := combineRev_length a.reverse b.reverse cr h
      simpa using this
    have hmax : max cr.reverse.length ((rest.map List.length).foldr max 0) =
        max a.length (max b.length ((rest.map List.length).foldr max 0)) := by
      simp only [List.length_reverse, hlen]
      omega
    rw [hmax]

theorem fold_step_ok_iff (rest : List (List Nat)) : ∀ (s r : List Nat),
    foldExcept _common_shape_step s rest = .ok r ↔ numpyBroadcast (s :: rest) = some r := by
  induction rest with
  | nil =>
    intro s r
    rw [numpyBroadcast_single]
    simp [foldExcept]
  | cons b rest ih =>
    intro s r
    rw [numpyBroadcast_pair_cons]
    simp only [foldExcept]
    cases h : combineOpt s b with
    | none =>
      simp only [_common_shape_step, h, Option.none_bind, except_bind_error]
      constructor
      · intro hc
        exact absurd hc (by simp)
      · intro hc
        exact absurd hc (by simp)
    | some c =>
      simp only [_common_shape_step, h, Option.some_bind, except_bind_ok]
      exact ih c r

/-- C3: `_common_shape` succeeds exactly when NumPy broadcasting (as
delegated to by `broadcast_shapes`) succeeds, and then returns the same
shape; consequently it fails exactly when NumPy broadcasting fails. -/
theorem common_shape_eq_numpy (shapes : List (List Nat)) (h : shapes ≠ []) :
    (∀ r, _common_shape shapes = .ok r ↔ broadcast_shapes shapes = some r) ∧
    ((∃ e, _common_shape shapes = .error e) ↔ broadcast_shapes shapes = none) := by
  cases shapes with
  | nil => exact absurd rfl h
  | cons s rest =>
    constructor
    · intro r
      exact fold_step_ok_iff rest s r
    · unfold broadcast_shapes
      cases hn : numpyBroadcast (s :: rest) with
      | some r =>
        have hok : _common_shape (s :: rest) = .ok r :=
          (fold_step_ok_iff rest s r).mpr hn
        simp only [hok]
        constructor
        · rintro ⟨e, he⟩
          exact absurd he (by simp)
        · intro hc
          exact absurd hc (by simp)
      | none =>
        constructor
        · intro _
          simp
        · intro _
          cases hc : _common_shape (s :: rest) with
          | error e => exact ⟨e, rfl⟩
          | ok r =>
            have := (fold_step_ok_iff rest s r).mp hc
            rw [hn] at this
            exact absurd this (by simp)

theorem common_shape_eq_numpy_witness :
    (([[1, 3], [5, 1]] : List (List Nat)) ≠ []) ∧
    ((∀ r, _common_shape [[1, 3], [5, 1]] = .ok r ↔ broadcast_shapes [[1, 3], [5, 1]] = some r) ∧
    ((∃ e, _common_shape [[1, 3], [5, 1]] = .error e) ↔ broadcast_shapes [[1, 3], [5, 1]] = none)) :=
  ⟨by decide, common_shape_eq_numpy [[1, 3], [5, 1]] (by decide)⟩

theorem common_shape_step_ok_iff (a b r : List Nat) :
    _common_shape_step a b = .ok r ↔ combineOpt a b = some r := by
  unfold _common_shape_step
  cases h : combineOpt a b <;> simp

theorem common_shape_two_ok_iff (a b r : List Nat) :
    _common_shape [a, b] = .ok r ↔ combineOpt a b = some r := by
  simp only [_common_shape, foldExcept, _common_shape_step]
  cases h : combineOpt a b with
  | none => simp
  | some c => simp

theorem combineOpt_comm (a b : List Nat) : combineOpt a b = combineOpt b a := by
  rw [combineOpt_eq, combineOpt_eq, combineRev_comm]

theorem combineOpt_assoc (a b c : List Nat) :
    (combineOpt a b).bind (fun d => combineOpt d c) =
      (combineOpt b c).bind (fun e => combineOpt a e) := by
  rw [combineOpt_eq a b, combineOpt_eq b c]
  cases h1 : combineRev a.reverse b.reverse with
  | none =>
    cases h2 : combineRev b.reverse c.reverse with
    | none => simp
    | some w =>
      have hassoc := combineRev_assoc a.reverse b.reverse c.reverse
      rw [h1, h2] at hassoc
      simp only [Option.none_bind, Option.some_bind] at hassoc
      simp only [Option.map_none', Option.none_bind, Option.map_some', Option.some_bind]
      rw [combineOpt_eq a w.reverse, List.reverse_reverse, ← hassoc]
      rfl
  | some v =>
    have hassoc := combineRev_assoc a.reverse b.reverse c.reverse
    rw [h1] at hassoc
    simp only [Option.some_bind] at hassoc
    simp only [Option.map_some', Option.some_bind]
    rw [combineOpt_eq v.reverse c, List.reverse_reverse]
    cases h2 : combineRev b.reverse c.reverse with
    | none =>
      rw [h2] at hassoc
      simp only [Option.none_bind] at hassoc
      simp only [Option.map_none', Option.none_bind]
      rw [hassoc]
      rfl
    | some w =>
      rw [h2] at hassoc
      simp only [Option.some_bind] at hassoc
      simp only [Option.map_some', Option.some_bind]
      rw [combineOpt_eq a w.reverse, List.reverse_reverse, hassoc]

/-- C8: reconciliation by `_common_shape` is commutative and associative on
successful results (so pairwise-compatible shapes combine to the same common
shape in any order or grouping); broadcasting (3,4) with (1,4) yields (3,4)
and broadcasting (3,4) with (5,4) fails. -/
theorem common_shape_comm_assoc :
    (∀ a b r, _common_shape [a, b] = .ok r ↔ _common_shape [b, a] = .ok r) ∧
    (∀ a b c r, (∃ d, _common_shape [a, b] = .ok d ∧ _common_shape [d, c] = .ok r) ↔
      (∃ e, _common_shape [b, c] = .ok e ∧ _common_shape [a, e] = .ok r)) ∧
    _common_shape [[3, 4], [1, 4]] = .ok [3, 4] ∧
    (∃ err, _common_shape [[3, 4], [5, 4]] = .error err) := by
  refine ⟨?_, ?_, by decide, ⟨.reconcileError [3, 4] [5, 4], by decide⟩⟩
  · intro a b r
    rw [common_shape_two_ok_iff, common_shape_two_ok_iff, combineOpt_comm]
  · intro a b c r
    simp only [common_shape_two_ok_iff]
    rw [← Option.bind_eq_some, ← Option.bind_eq_some, combineOpt_assoc]

/-- Row-major (C-order) enumeration of all coordinates of a batch shape:
models `np.indices(batch_shape)` with the index axis moved last and
flattened, including the edge case of an empty shape giving the single
empty coordinate. -/
def enumIndices : List Nat → List (List Nat)
  | [] => [[]]
  | d :: bs => (List.range d).flatMap (fun i => (enumIndices bs).map (fun idx => i :: idx))

/-- The arguments handed to the kernel at one batch coordinate:
`x[_translate_index(index, s)] for x, s in zip(xs, batch_shapes)`. -/
def sliceArgs (xs : List Tensor) (bss : List (List Nat)) (index : List Nat) :
    Except Err (List Tensor) :=
  mapExcept (fun p => (_translate_index index p.2).map (fun ti => tindex p.1 ti))
    (xs.zip bss)

/-- Models `B.stack(*batches, axis=0)` (numpy `stack` along a new leading
axis): all inputs must share one shape, and the flat data are concatenated
in order; numpy raises on an empty argument list. -/
def stack0 (ts : List Tensor) : Except Err Tensor :=
  match ts with
  | [] => .error .stackError
  | t :: rest =>
    if rest.all (fun u => u.shape == t.shape)
    then .ok ⟨(rest.length + 1) :: t.shape, ((t :: rest).map Tensor.data).flatten⟩
    else .error .stackError

/-- Models `B.reshape(res, *dims)` for plain non-negative dims (numpy
`reshape`): the new shape must account for exactly the data size. -/
def reshapeT (t : Tensor) (s : List Nat) : Except Err Tensor :=
  if s.prod = t.data.length then .ok ⟨s, t.data⟩
  else .error (.reshapeError (s.map Int.ofNat))

/-- Embeds `batch_computation` of `lab/util.py`: compute the per-argument
batch shapes, broadcast them to a common batch shape, enumerate its
coordinates row-major, apply the kernel to the translated slices at each
coordinate, stack the results along a new leading axis in that order, and
reshape so the leading dimensions are the batch shape. -/
def batch_computation (f : List Tensor → Except Err Tensor) (xs : List Tensor)
    (ranks : List Nat) : Except Err Tensor :=
  let batch_shapes := batchShapes xs ranks
  (_common_shape batch_shapes).bind (fun batch_shape =>
    (mapExcept (fun index => (sliceArgs xs batch_shapes index).bind f)
        (enumIndices batch_shape)).bind (fun batches =>
      (stack0 batches).bind (fun res =>
        reshapeT res (batch_shape ++ res.shape.drop 1))))

/-- Row-major position of a batch coordinate inside a batch shape. -/
def rowPos : List Nat → List Nat → Nat
  | _ :: bs, i :: idx => i * bs.prod + rowPos bs idx
  | _, _ => 0

/-- Strict lexicographic order on coordinates: row-major enumeration order. -/
def lexLt : List Nat → List Nat → Prop
  | i :: is', j :: js' => i < j ∨ (i = j ∧ lexLt is' js')
  | _, _ => False

theorem enumIndices_length (bs : List Nat) : (enumIndices bs).length = bs.prod := by
  induction bs with
  | nil => rfl
  | cons d bs ih =>
    simp only [enumIndices, List.length_flatMap, List.prod_cons]
    rw [show (List.map (List.length ∘ fun i => (enumIndices bs).map (fun idx => i :: idx))
        (List.range d)) = List.map (fun _ => bs.prod) (List.range d) from ?_]
    · rw [List.map_const', List.sum_replicate, List.length_range, smul_eq_mul]
    · apply List.map_congr_left
      intro i _
      simp [ih]

theorem mem_enumIndices (bs : List Nat) : ∀ (idx : List Nat),
    idx ∈ enumIndices bs ↔ List.Forall₂ (fun i d => i < d) idx bs := by
  induction bs with
  | nil =>
    intro idx
    simp only [enumIndices, List.mem_singleton, List.forall₂_nil_right_iff]
  | cons d bs ih =>
    intro idx
    simp only [enumIndices, List.mem_flatMap, List.mem_map, List.mem_range,
      List.forall₂_cons_right_iff]
    constructor
    · rintro ⟨i, hi, t, ht, rfl⟩
      exact ⟨i, t, hi, (ih t).mp ht, rfl⟩
    · rintro ⟨i, t, hi, ht, rfl⟩
      exact ⟨i, hi, t, (ih t).mpr ht, rfl⟩

theorem rowPos_lt (bs : List Nat) : ∀ (idx : List Nat),
    List.Forall₂ (fun i d => i < d) idx bs → rowPos bs idx < bs.prod := by
  induction bs with
  | nil =>
    intro idx h
    rw [List.forall₂_nil_right_iff] at h
    subst h
    simp [rowPos]
  | cons d bs ih =>
    intro idx h
    rw [List.forall₂_cons_right_iff] at h
    obtain ⟨i, t, hi, ht, rfl⟩ := h
    have hp := ih t ht
    simp only [rowPos, List.prod_cons]
    calc i * bs.prod + rowPos bs t < i * bs.prod + bs.prod := by omega
    _ = (i + 1) * bs.prod := by ring
    _ ≤ d * bs.prod := Nat.mul_le_mul_right _ (by omega)

theorem flatMap_range_blocks (m : Nat) : ∀ (d : Nat),
    (List.range d).flatMap (fun i => (List.range m).map (fun j => i * m + j)) =
      List.range (d * m) := by
  intro d
  induction d with
  | zero => simp
  | succ d ih =>
    rw [List.range_succ, List.flatMap_append, ih]
    simp only [List.flatMap_cons, List.flatMap_nil, List.append_nil]
    rw [show (d + 1) * m = d * m + m from by ring, List.range_add]

theorem enumIndices_rowPos (bs : List Nat) :
    (enumIndices bs).map (rowPos bs) = List.range bs.prod := by
  induction bs with
  | nil => rfl
  | cons d bs ih =>
    simp only [enumIndices, List.map_flatMap, List.prod_cons]
    rw [← flatMap_range_blocks bs.prod d]
    apply List.flatMap_congr
    intro i _
    simp only [List.map_map]
    rw [show ((rowPos (d :: bs)) ∘ fun idx => i :: idx) =
      (fun j => i * bs.prod + j) ∘ rowPos bs from rfl, ← List.map_map, ih]

theorem sliceData_at_pos (bs : List Nat) : ∀ (idx os : List Nat) (data : List Int),
    List.Forall₂ (fun i d => i < d) idx bs →
    data.length = bs.prod * os.prod →
    sliceData (bs ++ os) idx data =
      (data.drop (rowPos bs idx * os.prod)).take os.prod := by
  induction bs with
  | nil =>
    intro idx os data h hlen
    rw [List.forall₂_nil_right_iff] at h
    subst h
    simp only [List.nil_append, sliceData, rowPos, Nat.zero_mul, List.drop_zero]
    rw [show os.prod = data.length from by simp at hlen; omega]
    exact (List.take_length data).symm
  | cons d bs ih =>
    intro idx os data h hlen
    rw [List.forall₂_cons_right_iff] at h
    obtain ⟨i, t, hi, ht, rfl⟩ := h
    simp only [List.cons_append, sliceData, List.append_eq]
    have hP : (bs ++ os).prod = bs.prod * os.prod := List.prod_append
    have h1 : i * (bs ++ os).prod + (bs ++ os).prod ≤ data.length := by
      rw [← Nat.succ_mul, hP, hlen, List.prod_cons, Nat.mul_assoc]
      exact Nat.mul_le_mul_right _ (by omega)
    have hchunklen :
        ((data.drop (i * (bs ++ os).prod)).take ((bs ++ os).prod)).length =
          bs.prod * os.prod := by
      rw [List.length_take, List.length_drop, ← hP]
      omega
    rw [ih t os _ ht hchunklen]
    have hq : rowPos bs t < bs.prod := rowPos_lt bs t ht
    rw [List.drop_take, List.drop_drop, List.take_take]
    rw [show os.prod ⊓ ((bs ++ os).prod - rowPos bs t * os.prod) = os.prod from by
      rw [hP]
      have h2 := Nat.mul_le_mul_right os.prod (Nat.succ_le_of_lt hq)
      rw [Nat.succ_mul] at h2
      omega]
    rw [show i * (bs ++ os).prod + rowPos bs t * os.prod =
      rowPos (d :: bs) (i :: t) * os.prod from by
      simp only [rowPos, hP]
      ring]

theorem flatten_chunk (L : Nat) : ∀ (blocks : List (List Int)) (k : Nat)
    (hk : k < blocks.length), (∀ b ∈ blocks, b.length = L) →
    ((blocks.flatten).drop (k * L)).take L = blocks.get ⟨k, hk⟩ := by
  intro blocks
  induction blocks with
  | nil =>
    intro k hk hall
    exact absurd hk (by simp)
  | cons b bl ih =>
    intro k hk hall
    cases k with
    | zero =>
      simp only [Nat.zero_mul, List.drop_zero, List.flatten_cons, List.get]
      rw [show L = b.length from (hall b (by simp)).symm]
      exact List.take_left b bl.flatten
    | succ k =>
      simp only [List.flatten_cons]
      rw [show (k + 1) * L = b.length + k * L from by rw [hall b (by simp)]; ring]
      rw [← List.drop_drop, List.drop_left]
      exact ih k (by simpa using hk) (fun x hx => hall x (by simp [hx]))

theorem flatten_length_const (L : Nat) : ∀ (blocks : List (List Int)),
    (∀ b ∈ blocks, b.length = L) → blocks.flatten.length = blocks.length * L := by
  intro blocks
  induction blocks with
  | nil =>
    intro
    simp
  | cons b bl ih =>
    intro hall
    simp only [List.flatten_cons, List.length_append, List.length_cons]
    rw [ih (fun x hx => hall x (by simp [hx])), hall b (by simp)]
    ring

theorem mapExcept_ok_iff (g : α → Except Err β) : ∀ (l : List α) (ys : List β),
    mapExcept g l = .ok ys ↔ List.Forall₂ (fun a b => g a = .ok b) l ys := by
  intro l
  induction l with
  | nil =>
    intro ys
    simp only [mapExcept, Except.ok.injEq]
    constructor
    · rintro rfl
      exact List.Forall₂.nil
    · intro h
      rw [List.forall₂_nil_left_iff] at h
      exact h.symm
  | cons a l ih =>
    intro ys
    simp only [mapExcept]
    cases hg : g a with
    | error e =>
      simp only [except_bind_error]
      constructor
      · intro h
        exact absurd h (by simp)
      · intro h
        rw [List.forall₂_cons_left_iff] at h
        obtain ⟨b, ys', hb, _, rfl⟩ := h
        rw [hg] at hb
        exact absurd hb (by simp)
    | ok b =>
      simp only [except_bind_ok]
      cases hm : mapExcept g l with
      | error e =>
        simp only [except_map_error]
        constructor
        · intro h
          exact absurd h (by simp)
        · intro h
          rw [List.forall₂_cons_left_iff] at h
          obtain ⟨b', ys', _, hys', rfl⟩ := h
          have hys := (ih ys').mpr hys'
          rw [hm] at hys
          exact absurd hys (by simp)
      | ok bs =>
        simp only [except_map_ok, Except.ok.injEq]
        constructor
        · rintro rfl
          exact List.Forall₂.cons hg ((ih bs).mp hm)
        · intro h
          rw [List.forall₂_cons_left_iff] at h
          obtain ⟨b', ys', hb', hys', rfl⟩ := h
          rw [hg] at hb'
          obtain rfl := Except.ok.inj hb'
          have hys := (ih ys').mpr hys'
          rw [hm] at hys
          obtain rfl := Except.ok.inj hys
          rfl

theorem enumIndices_rowPos_getElem (bs : List Nat) (k : Nat)
    (hk : k < (enumIndices bs).length) : rowPos bs ((enumIndices bs)[k]) = k := by
  have h1 : ((enumIndices bs).map (rowPos bs))[k]? = some (rowPos bs (enumIndices bs)[k]) := by
    rw [List.getElem?_map, List.getElem?_eq_getElem hk, Option.map_some']
  rw [enumIndices_rowPos bs,
    List.getElem?_range (by rw [← enumIndices_length bs]; exact hk)] at h1
  exact (Option.some.inj h1).symm

theorem stack0_ok (ts : List Tensor) (st : Tensor) (h : stack0 ts = .ok st) :
    ∃ t0 rest, ts = t0 :: rest ∧ (∀ u ∈ ts, u.shape = t0.shape) ∧
      st = ⟨ts.length :: t0.shape, (ts.map Tensor.data).flatten⟩ := by
  cases ts with
  | nil => exact absurd h (by simp [stack0])
  | cons t0 rest =>
    simp only [stack0] at h
    by_cases hall : (rest.all fun u => u.shape == t0.shape) = true
    · rw [if_pos hall] at h
      obtain rfl := Except.ok.inj h
      refine ⟨t0, rest, rfl, ?_, ?_⟩
      · intro u hu
        rcases List.mem_cons.mp hu with rfl | hmem
        · rfl
        · exact beq_iff_eq.mp (List.all_eq_true.mp hall u hmem)
      · simp [List.length_cons]
    · rw [if_neg hall] at h
      exact absurd h (by simp)

/-- C1: whenever `batch_computation` returns a tensor (for a kernel whose
outputs are well-formed tensors), the result's leading dimensions are the
common broadcast batch shape, its trailing dimensions are the kernel's
output shape, and its slice at every batch coordinate is exactly the kernel
applied to the per-argument translated slices at that coordinate (size-1
batch dimensions reusing their single slice). -/
theorem batch_computation_spec (f : List Tensor → Except Err Tensor)
    (xs : List Tensor) (ranks : List Nat) (res : Tensor)
    (hf : ∀ args y, f args = .ok y → wf y)
    (h : batch_computation f xs ranks = .ok res) :
    ∃ bs os, _common_shape (batchShapes xs ranks) = .ok bs ∧
      res.shape = bs ++ os ∧
      ∀ index ∈ enumIndices bs, ∃ args y,
        sliceArgs xs (batchShapes xs ranks) index = .ok args ∧
        f args = .ok y ∧ y.shape = os ∧ tindex res index = y := by
  simp only [batch_computation] at h
  cases hc : _common_shape (batchShapes xs ranks) with
  | error e =>
    rw [hc] at h
    exact absurd h (by simp)
  | ok bs =>
  rw [hc, except_bind_ok] at h
  cases hm : mapExcept (fun index => (sliceArgs xs (batchShapes xs ranks) index).bind f)
      (enumIndices bs) with
  | error e =>
    rw [hm] at h
    exact absurd h (by simp)
  | ok ys =>
  rw [hm, except_bind_ok] at h
  cases hs : stack0 ys with
  | error e =>
    rw [hs] at h
    exact absurd h (by simp)
  | ok st =>
  rw [hs, except_bind_ok] at h
  obtain ⟨y0, yr, rfl, hshape, rfl⟩ := stack0_ok ys st hs
  unfold reshapeT at h
  split at h
  case isFalse => exact absurd h (by simp)
  case isTrue hprod =>
  obtain rfl := Except.ok.inj h
  have hF := (mapExcept_ok_iff _ (enumIndices bs) (y0 :: yr)).mp hm
  have hlen2 : (enumIndices bs).length = (y0 :: yr).length := hF.length_eq
  have henum : (enumIndices bs).length = bs.prod := enumIndices_length bs
  have hget := (List.forall₂_iff_get.mp hF).2
  -- every produced batch is a kernel output, hence well formed
  have hwf : ∀ y ∈ (y0 :: yr), y.data.length = y0.shape.prod := by
    intro y hy
    obtain ⟨k, hk, rfl⟩ := List.mem_iff_getElem.mp hy
    have hk1 : k < (enumIndices bs).length := by omega
    have hkk := hget k hk1 hk
    simp only [List.get_eq_getElem] at hkk
    cases hsa : sliceArgs xs (batchShapes xs ranks) (enumIndices bs)[k] with
    | error e =>
      rw [hsa] at hkk
      exact absurd hkk (by simp)
    | ok args =>
      rw [hsa, except_bind_ok] at hkk
      have := hf args _ hkk
      rw [wf, hshape _ (List.getElem_mem hk)] at this
      exact this
  refine ⟨bs, y0.shape, rfl, by simp only [List.drop_one, List.tail_cons], ?_⟩
  intro index hidx
  obtain ⟨k, hk1, hget'⟩ := List.mem_iff_getElem.mp hidx
  have hk2 : k < (y0 :: yr).length := by omega
  have hkk := hget k hk1 hk2
  simp only [List.get_eq_getElem] at hkk
  rw [hget'] at hkk
  cases hsa : sliceArgs xs (batchShapes xs ranks) index with
  | error e =>
    rw [hsa] at hkk
    exact absurd hkk (by simp)
  | ok args =>
  rw [hsa, except_bind_ok] at hkk
  refine ⟨args, (y0 :: yr)[k], rfl, hkk, hshape _ (List.getElem_mem hk2), ?_⟩
  -- the slice of the result at this coordinate is that kernel output
  have hvalid : List.Forall₂ (fun i d => i < d) index bs :=
    (mem_enumIndices bs index).mp hidx
  have hlenidx : index.length = bs.length := hvalid.length_eq
  have hblocks : ∀ b ∈ (y0 :: yr).map Tensor.data, b.length = y0.shape.prod := by
    intro b hb
    obtain ⟨y, hy, rfl⟩ := List.mem_map.mp hb
    exact hwf y hy
  have hdatalen : (((y0 :: yr).map Tensor.data).flatten).length =
      bs.prod * y0.shape.prod := by
    rw [flatten_length_const y0.shape.prod _ hblocks, List.length_map]
    rw [show (y0 :: yr).length = bs.prod from by omega]
  have hshapedrop : ((bs ++ ((y0 :: yr).length :: y0.shape).drop 1)).drop bs.length =
      y0.shape := by
    simp only [List.drop_one, List.tail_cons]
    exact List.drop_left bs y0.shape
  have hdata : sliceData (bs ++ ((y0 :: yr).length :: y0.shape).drop 1) index
      (((y0 :: yr).map Tensor.data).flatten) = (y0 :: yr)[k].data := by
    simp only [List.drop_one, List.tail_cons]
    rw [sliceData_at_pos bs index y0.shape _ hvalid hdatalen]
    rw [show rowPos bs index = k from by rw [← hget']; exact enumIndices_rowPos_getElem bs k hk1]
    have := flatten_chunk y0.shape.prod ((y0 :: yr).map Tensor.data) k
      (by simpa using hk2) hblocks
    rw [this, List.get_eq_getElem, List.getElem_map]
  unfold tindex
  dsimp only
  rw [hlenidx, hshapedrop, hdata, ← hshape _ (List.getElem_mem hk2)]

/-- A concrete well-formed test kernel: sums the entries of all arguments
into a one-element tensor. -/
def sumKernel (args : List Tensor) : Except Err Tensor :=
  .ok ⟨[1], [(args.map (fun t => t.data.sum)).sum]⟩

theorem sumKernel_wf (args : List Tensor) (y : Tensor) (h : sumKernel args = .ok y) :
    wf y := by
  obtain rfl := Except.ok.inj h
  simp [wf]

theorem batch_computation_spec_witness :
    ∃ bs os,
      _common_shape (batchShapes [⟨[1, 2], [10, 20]⟩, ⟨[2, 2], [1, 2, 3, 4]⟩] [1, 1]) =
        .ok bs ∧
      (Tensor.mk [2, 1] [33, 37]).shape = bs ++ os ∧
      ∀ index ∈ enumIndices bs, ∃ args y,
        sliceArgs [⟨[1, 2], [10, 20]⟩, ⟨[2, 2], [1, 2, 3, 4]⟩]
          (batchShapes [⟨[1, 2], [10, 20]⟩, ⟨[2, 2], [1, 2, 3, 4]⟩] [1, 1]) index =
            .ok args ∧
        sumKernel args = .ok y ∧ y.shape = os ∧
        tindex ⟨[2, 1], [33, 37]⟩ index = y :=
  batch_computation_spec sumKernel [⟨[1, 2], [10, 20]⟩, ⟨[2, 2], [1, 2, 3, 4]⟩] [1, 1]
    ⟨[2, 1], [33, 37]⟩ sumKernel_wf (by decide)

theorem enumIndices_pairwise (bs : List Nat) : (enumIndices bs).Pairwise lexLt := by
  induction bs with
  | nil => simp [enumIndices]
  | cons d bs ih =>
    simp only [enumIndices]
    induction d with
    | zero => simp
    | succ n ihn =>
      rw [List.range_succ, List.flatMap_append, List.pairwise_append]
      refine ⟨ihn, ?_, ?_⟩
      · simp only [List.flatMap_cons, List.flatMap_nil, List.append_nil]
        exact List.Pairwise.map _ (fun a b hab => Or.inr ⟨rfl, hab⟩) ih
      · intro x hx y hy
        simp only [List.flatMap_cons, List.flatMap_nil, List.append_nil, List.mem_map] at hy
        obtain ⟨t, _, rfl⟩ := hy
        rw [List.mem_flatMap] at hx
        obtain ⟨i, hi, hxm⟩ := hx
        rw [List.mem_map] at hxm
        obtain ⟨s, _, rfl⟩ := hxm
        rw [List.mem_range] at hi
        exact Or.inl hi

/-- C6: the kernel of `batch_computation` is invoked once per coordinate of
the common batch shape — the enumerated coordinates are exactly the valid
coordinates, each once, in strictly increasing lexicographic (row-major,
C-order) order — and the per-coordinate results are stacked along the new
leading axis in that same order before reshaping. -/
theorem batch_invocation_order (f : List Tensor → Except Err Tensor)
    (xs : List Tensor) (ranks : List Nat) (bs : List Nat)
    (h : _common_shape (batchShapes xs ranks) = .ok bs) :
    (enumIndices bs).Pairwise lexLt ∧
    (∀ index, index ∈ enumIndices bs ↔ List.Forall₂ (fun i d => i < d) index bs) ∧
    batch_computation f xs ranks =
      (mapExcept (fun index => (sliceArgs xs (batchShapes xs ranks) index).bind f)
          (enumIndices bs)).bind (fun batches =>
        (stack0 batches).bind (fun res =>
          reshapeT res (bs ++ res.shape.drop 1))) := by
  refine ⟨enumIndices_pairwise bs, fun index => mem_enumIndices bs index, ?_⟩
  simp only [batch_computation, h, except_bind_ok]

theorem batch_invocation_order_witness :
    _common_shape (batchShapes [Tensor.mk [2, 1] [7, 8]] [1]) = .ok [2] ∧
    ((enumIndices [2]).Pairwise lexLt ∧
    (∀ index, index ∈ enumIndices [2] ↔
      List.Forall₂ (fun i d => i < d) index [2]) ∧
    batch_computation sumKernel [Tensor.mk [2, 1] [7, 8]] [1] =
      (mapExcept (fun index =>
          (sliceArgs [Tensor.mk [2, 1] [7, 8]] (batchShapes [Tensor.mk [2, 1] [7, 8]] [1]) index).bind
            sumKernel) (enumIndices [2])).bind (fun batches =>
        (stack0 batches).bind (fun res =>
          reshapeT res ([2] ++ res.shape.drop 1)))) :=
  ⟨by decide, batch_invocation_order sumKernel [Tensor.mk [2, 1] [7, 8]] [1] [2] (by decide)⟩

theorem batchShapes_full (xs : List Tensor) :
    batchShapes xs (xs.map (fun x => x.shape.length)) =
      xs.map (fun _ => ([] : List Nat)) := by
  induction xs with
  | nil => rfl
  | cons x xs ih =>
    simp only [batchShapes, List.map_cons, List.zip_cons_cons]
    rw [pyDropLast_full]
    congr 1

theorem foldExcept_nils (l : List (List Nat)) (hl : ∀ s ∈ l, s = []) :
    foldExcept _common_shape_step [] l = .ok [] := by
  induction l with
  | nil => rfl
  | cons s l ih =>
    have hs := hl s (by simp)
    subst hs
    simp only [foldExcept]
    rw [show _common_shape_step [] [] = .ok [] from rfl, except_bind_ok]
    exact ih (fun s hs => hl s (by simp [hs]))

theorem tindex_nil (x : Tensor) : tindex x [] = x := by
  unfold tindex
  rw [List.length_nil, List.drop_zero, show sliceData x.shape [] x.data = x.data from by
    cases x.shape <;> rfl]

theorem sliceArgs_unbatched (xs : List Tensor) :
    sliceArgs xs (xs.map (fun _ => ([] : List Nat))) [] = .ok xs := by
  induction xs with
  | nil => rfl
  | cons x xs ih =>
    simp only [sliceArgs, List.map_cons, List.zip_cons_cons, mapExcept]
    rw [show _translate_index [] [] = .ok [] from rfl]
    simp only [except_map_ok, except_bind_ok]
    rw [tindex_nil]
    simp only [sliceArgs] at ih
    have ih' : mapExcept
        (fun p => Except.map (fun ti => tindex p.1 ti) (_translate_index [] p.2))
        (List.zipWith Prod.mk xs (List.map (fun _ => ([] : List Nat)) xs)) =
        Except.ok xs := ih
    rw [ih']
    rfl

/-- C7: with every kernel-rank equal to its argument's full rank the common
batch shape is empty, the kernel is invoked exactly once on the full
unbatched arguments, and `batch_computation` returns exactly the kernel's
direct output (and propagates the kernel's error unchanged). -/
theorem batch_computation_unbatched (f : List Tensor → Except Err Tensor)
    (xs : List Tensor) (ranks : List Nat) (hne : xs ≠ [])
    (hr : ranks = xs.map (fun x => x.shape.length)) :
    _common_shape (batchShapes xs ranks) = .ok [] ∧
    sliceArgs xs (batchShapes xs ranks) [] = .ok xs ∧
    (∀ y, f xs = .ok y → wf y → batch_computation f xs ranks = .ok y) ∧
    (∀ e, f xs = .error e → batch_computation f xs ranks = .error e) := by
  subst hr
  have hcs : _common_shape (batchShapes xs (xs.map (fun x => x.shape.length))) = .ok [] := by
    rw [batchShapes_full]
    cases xs with
    | nil => exact absurd rfl hne
    | cons x xs =>
      simp only [List.map_cons, _common_shape]
      refine foldExcept_nils _ ?_
      intro s hs
      obtain ⟨a, _, hs'⟩ := List.mem_map.mp hs
      exact hs'.symm
  have hsl : sliceArgs xs (batchShapes xs (xs.map (fun x => x.shape.length))) [] = .ok xs := by
    rw [batchShapes_full]
    exact sliceArgs_unbatched xs
  refine ⟨hcs, hsl, ?_, ?_⟩
  · intro y hy hwfy
    simp only [batch_computation]
    rw [hcs, except_bind_ok, show enumIndices [] = [[]] from rfl]
    simp only [mapExcept]
    rw [hsl, except_bind_ok, hy]
    simp only [except_bind_ok, except_map_ok]
    have hstack : stack0 [y] = .ok ⟨1 :: y.shape, y.data⟩ := by
      simp [stack0]
    rw [hstack, except_bind_ok]
    dsimp only
    simp only [List.nil_append, List.drop_one, List.tail_cons, reshapeT]
    rw [if_pos hwfy.symm]
  · intro e he
    simp only [batch_computation]
    rw [hcs, except_bind_ok, show enumIndices [] = [[]] from rfl]
    simp only [mapExcept]
    rw [hsl, except_bind_ok, he]
    rfl

theorem batch_computation_unbatched_witness :
    (([Tensor.mk [2] [5, 6]] : List Tensor) ≠ [] ∧
      ([1] : List Nat) = [Tensor.mk [2] [5, 6]].map (fun x => x.shape.length)) ∧
    (_common_shape (batchShapes [Tensor.mk [2] [5, 6]] [1]) = .ok [] ∧
    sliceArgs [Tensor.mk [2] [5, 6]] (batchShapes [Tensor.mk [2] [5, 6]] [1]) [] =
      .ok [Tensor.mk [2] [5, 6]] ∧
    (∀ y, sumKernel [Tensor.mk [2] [5, 6]] = .ok y → wf y →
      batch_computation sumKernel [Tensor.mk [2] [5, 6]] [1] = .ok y) ∧
    (∀ e, sumKernel [Tensor.mk [2] [5, 6]] = .error e →
      batch_computation sumKernel [Tensor.mk [2] [5, 6]] [1] = .error e)) :=
  ⟨⟨by decide, by decide⟩,
    batch_computation_unbatched sumKernel [Tensor.mk [2] [5, 6]] [1] (by decide) (by decide)⟩

/-- An argument of a generic operation as the dispatcher sees it: its runtime
type name and an opaque payload. -/
structure Arg where
  ty : String
  val : Int
deriving DecidableEq

/-- The splitting index computed by the wrapper of `abstract`: 0 when
`promote` is `None` or 0, `len(args) + 1` when `promote` is negative, and
`promote` itself otherwise. -/
def promoteIndex (promote : Option Int) (nargs : Nat) : Nat :=
  match promote with
  | none => 0
  | some p => if p = 0 then 0 else if p < 0 then nargs + 1 else p.toNat

/-- The argument list after the promotion step of `abstract`'s wrapper:
`plum.promote` (an external collaborator, passed in as `promoteFn`) is
applied to the prefix when `promote_from` is not given, and to the suffix
when it is. -/
def promotedArgs (promote? promoteFrom? : Option Int)
    (promoteFn : List Arg → List Arg) (args : List Arg) : List Arg :=
  let promote := if promote? = none then promoteFrom? else promote?
  let pIdx := promoteIndex promote args.length
  if promoteFrom? = none
  then promoteFn (args.take pIdx) ++ args.drop pIdx
  else args.take pIdx ++ promoteFn (args.drop pIdx)

/-- Embeds the `abstract` decorator of `lab/util.py` applied to an operation
`fname`, called on `args`: specifying both `promote` and `promote_from`
raises a `ValueError`; otherwise the arguments are promoted, and if no
argument's type changed a `NotFoundLookupError` naming the operation and the
argument types is raised immediately, else the call is retried once through
the dispatcher (`retry`, the external `getattr(B, fname)`) on the promoted
arguments. -/
def abstractCall (fname : String) (promote? promoteFrom? : Option Int)
    (promoteFn : List Arg → List Arg) (retry : List Arg → Except Err Int)
    (args : List Arg) : Except Err Int :=
  if promote?.isSome ∧ promoteFrom?.isSome then .error .valueError
  else
    let args' := promotedArgs promote? promoteFrom? promoteFn args
    let types_before := args.map Arg.ty
    let types_after := args'.map Arg.ty
    if types_before = types_after
    then .error (.notFoundLookupError fname types_after)
    else retry args'

/-- C9: for a valid `abstract` configuration, if promotion leaves every
argument's type unchanged the call fails immediately with a
`NotFoundLookupError` naming the operation and the argument types — for
every possible retry continuation, so no retry and no retry loop happens —
and a retry (exactly one, on the promoted arguments) happens only when
promotion changed at least one argument's type. -/
theorem abstract_dispatch_miss (fname : String) (promote? promoteFrom? : Option Int)
    (promoteFn : List Arg → List Arg) (args : List Arg)
    (hcfg : ¬(promote?.isSome ∧ promoteFrom?.isSome)) :
    ((promotedArgs promote? promoteFrom? promoteFn args).map Arg.ty = args.map Arg.ty →
      ∀ retry, abstractCall fname promote? promoteFrom? promoteFn retry args =
        .error (.notFoundLookupError fname (args.map Arg.ty))) ∧
    ((promotedArgs promote? promoteFrom? promoteFn args).map Arg.ty ≠ args.map Arg.ty →
      ∀ retry, abstractCall fname promote? promoteFrom? promoteFn retry args =
        retry (promotedArgs promote? promoteFrom? promoteFn args)) := by
  constructor
  · intro hsame retry
    simp only [abstractCall]
    rw [if_neg hcfg, if_pos hsame.symm, hsame]
  · intro hdiff retry
    simp only [abstractCall]
    rw [if_neg hcfg, if_neg (fun hc => hdiff hc.symm)]

theorem abstract_dispatch_miss_witness :
    (¬((some 1 : Option Int).isSome ∧ (none : Option Int).isSome)) ∧
    (∀ retry, abstractCall "cholesky" (some 1) none id retry [⟨"AutogradNumeric", 3⟩] =
      .error (.notFoundLookupError "cholesky" ["AutogradNumeric"])) :=
  ⟨by decide,
    (abstract_dispatch_miss "cholesky" (some 1) none id [⟨"AutogradNumeric", 3⟩]
      (by decide)).1 (by decide)⟩

/-- Modelled from numpy semantics (`np.reshape` is external to this
repository): reshape with a single leading `-1` infers that dimension as
data size divided by the product of the remaining dimensions, and numpy
raises when that product is zero or does not divide the data size
("cannot reshape array"); all-nonnegative dims are an exact reshape. -/
def reshapeNeg1 (t : Tensor) (dims : List Int) : Except Err Tensor :=
  match dims with
  | [] => reshapeT t []
  | d :: rest =>
    if d = -1 then
      if (rest.map Int.toNat).prod ≠ 0 ∧ (rest.map Int.toNat).prod ∣ t.data.length
      then .ok ⟨(t.data.length / (rest.map Int.toNat).prod) :: rest.map Int.toNat, t.data⟩
      else .error (.reshapeError (d :: rest))
    else if (d :: rest).all (fun x => 0 ≤ x) then reshapeT t ((d :: rest).map Int.toNat)
    else .error (.reshapeError (d :: rest))

/-- The `uncompress` closure returned by `compress_batch`:
`B.reshape(y, *shape[:-n], *B.shape(y)[1:])`. -/
def uncompress (shape : List Nat) (n : Nat) (y : Tensor) : Except Err Tensor :=
  reshapeT y (pyDropLast shape n ++ y.shape.drop 1)

/-- Embeds `compress_batch` of `lab/util.py`: reshape `x` to
`(-1, *shape[-n:])` and return it together with the uncompress closure. -/
def compress_batch (x : Tensor) (n : Nat) :
    Except Err (Tensor × (Tensor → Except Err Tensor)) :=
  (reshapeNeg1 x ((-1 : Int) :: (pyTailSlice x.shape n).map Int.ofNat)).map
    (fun c => (c, uncompress x.shape n))

/-- C10 counterexample: on the well-formed empty tensor of shape (2, 0) with
n = 1 the compression reshape `(-1, 0)` cannot infer the leading dimension,
so `compress_batch` raises instead of returning the claimed tensor of shape
(2, 0). -/
theorem compress_batch_counterexample :
    compress_batch ⟨[2, 0], []⟩ 1 = .error (.reshapeError [-1, 0]) ∧
    wf ⟨[2, 0], []⟩ ∧
    (∀ c g, compress_batch ⟨[2, 0], []⟩ 1 ≠ .ok (c, g)) := by
  refine ⟨rfl, by simp [wf], ?_⟩
  intro c g hc
  rw [show compress_batch ⟨[2, 0], []⟩ 1 = .error (.reshapeError [-1, 0]) from rfl] at hc
  exact absurd hc (by simp)

/-- C10 (amended): for `0 < n ≤ rank x` on a well-formed tensor whose
trailing `n` dimensions have nonzero product, `compress_batch` returns a
tensor whose shape is the product of the leading `rank x - n` dimensions
followed by the last `n` dimensions of `x`, together with the uncompress
function, and uncompressing the compressed tensor yields a tensor with
exactly the original shape of `x`. -/
theorem compress_batch_spec (x : Tensor) (n : Nat) (hw : wf x) (h1 : 0 < n)
    (h2 : n ≤ x.shape.length) (h0 : (pyTailSlice x.shape n).prod ≠ 0) :
    ∃ c, compress_batch x n = .ok (c, uncompress x.shape n) ∧
      c.shape = (x.shape.take (x.shape.length - n)).prod ::
        x.shape.drop (x.shape.length - n) ∧
      ∃ u, uncompress x.shape n c = .ok u ∧ u.shape = x.shape := by
  have htail : pyTailSlice x.shape n = x.shape.drop (x.shape.length - n) := by
    unfold pyTailSlice
    rw [if_neg (by omega)]
  have hsplit : x.shape.take (x.shape.length - n) ++
      x.shape.drop (x.shape.length - n) = x.shape := List.take_append_drop _ _
  have hprodsplit : x.shape.prod = (x.shape.take (x.shape.length - n)).prod *
      (x.shape.drop (x.shape.length - n)).prod := by
    conv_lhs => rw [← hsplit]
    exact List.prod_append
  have hD0 : (x.shape.drop (x.shape.length - n)).prod ≠ 0 := by
    rw [← htail]
    exact h0
  have hdvd : (x.shape.drop (x.shape.length - n)).prod ∣ x.data.length :=
    ⟨(x.shape.take (x.shape.length - n)).prod, by rw [hw, hprodsplit]; ring⟩
  have hquot : x.data.length / (x.shape.drop (x.shape.length - n)).prod =
      (x.shape.take (x.shape.length - n)).prod := by
    rw [hw, hprodsplit, Nat.mul_div_cancel _ (Nat.pos_of_ne_zero hD0)]
  have hrest : ((x.shape.drop (x.shape.length - n)).map Int.ofNat).map Int.toNat =
      x.shape.drop (x.shape.length - n) := by
    have hco : (Int.toNat ∘ Int.ofNat) = id := funext (fun m => Int.toNat_ofNat m)
    rw [List.map_map, hco, List.map_id]
  have hcomp : compress_batch x n = .ok
      (⟨(x.shape.take (x.shape.length - n)).prod ::
          x.shape.drop (x.shape.length - n), x.data⟩, uncompress x.shape n) := by
    simp only [compress_batch, reshapeNeg1, htail]
    rw [if_pos trivial, hrest, if_pos ⟨hD0, hdvd⟩, hquot]
    rfl
  refine ⟨_, hcomp, rfl, ?_⟩
  have hun : uncompress x.shape n
      ⟨(x.shape.take (x.shape.length - n)).prod ::
        x.shape.drop (x.shape.length - n), x.data⟩ = .ok ⟨x.shape, x.data⟩ := by
    simp only [uncompress, pyDropLast_pos x.shape n h1]
    rw [List.drop_one, List.tail_cons, hsplit]
    unfold reshapeT
    rw [if_pos hw.symm]
  exact ⟨_, hun, rfl⟩

theorem compress_batch_spec_witness :
    (wf ⟨[2, 3], [1, 2, 3, 4, 5, 6]⟩ ∧ (0 : Nat) < 1 ∧
      1 ≤ ([2, 3] : List Nat).length ∧ (pyTailSlice [2, 3] 1).prod ≠ 0) ∧
    (∃ c, compress_batch ⟨[2, 3], [1, 2, 3, 4, 5, 6]⟩ 1 = .ok (c, uncompress [2, 3] 1) ∧
      c.shape = (([2, 3] : List Nat).take (([2, 3] : List Nat).length - 1)).prod ::
        ([2, 3] : List Nat).drop (([2, 3] : List Nat).length - 1) ∧
      ∃ u, uncompress [2, 3] 1 c = .ok u ∧ u.shape = [2, 3]) :=
  ⟨⟨by rfl, by decide, by decide, by decide⟩,
    compress_batch_spec ⟨[2, 3], [1, 2, 3, 4, 5, 6]⟩ 1 (by rfl) (by decide) (by decide)
      (by decide)⟩
